import Mathlib

/-!
Verification of the option dependency resolution and interactive collection
engine of the luraph-vscode extension (src/extension.ts), against its
natural-language specification.

The embedding models the code of the single command handler:

* the option data model (lines 118-173): an option has a type
  (CHECKBOX / DROPDOWN / TEXT), a list of choices, and an optional
  dependency map from option ids to lists of acceptable values.
  Display-only fields (name, description, tier) feed icons and labels only
  and are never read by the modeled logic, so they are omitted.
  A JavaScript object with string keys is modeled as an association list in
  insertion order (option ids in this API are non-numeric strings, so the
  JavaScript integer-key reordering rule never applies).
* the dependency resolver (lines 161-220): collection of linked ids,
  the two Array.prototype.sort calls, the depth-first topological pass and
  the de-duplication filter.
* the cluster segmentation implicit in the collection loop (lines 222-261).
* the dependency evaluator getVisibleOptions (lines 274-292).
* the interactive collector (lines 222-448) as a pure function over a
  script of user responses, one response per suspension point.

Where the source would throw a TypeError (destructuring a property of
undefined after a lookup of an id that is not a key), the model returns
none; every theorem that needs exact behaviour carries the closedness
hypothesis under which the source never reaches such a lookup.
-/

inductive OptType
  | CHECKBOX
  | DROPDOWN
  | TEXT
deriving DecidableEq

/-- Values stored in the user option map and in dependency value lists:
the Luraph option list maps ids to booleans (checkboxes) or strings
(dropdowns and text inputs). -/
inductive JSVal
  | bool (b : Bool)
  | str (s : String)
deriving DecidableEq

/-- One configurable option, as consumed from the node description
(type, choices, dependencies fields of the source option objects).
The dependencies field is `some pairs` when the JavaScript object carries a
dependencies property (the source guard `if (option.dependencies)` is then
truthy, an empty object included) and `none` when the property is absent. -/
structure Opt where
  type : OptType
  choices : List String
  dependencies : Option (List (String × List JSVal))
deriving DecidableEq

/-- A node option map: association list from option id to option, in
JavaScript object insertion order. JavaScript objects cannot carry a key
twice; theorems that depend on that carry a Nodup hypothesis on the keys. -/
abbrev OptionSet := List (String × Opt)

/-- Property read `nodeInfo.options[id]`. -/
def lookupOpt (opts : OptionSet) (id : String) : Option Opt :=
  (opts.find? (fun p => p.1 == id)).map Prod.snd

/-- The key set `Object.keys(nodeInfo.options)`, in insertion order. -/
def keys (opts : OptionSet) : List String := opts.map Prod.fst

/-- The ids referenced by the dependencies of one option:
`Object.keys(option.dependencies)` when present, `[]` otherwise. -/
def depKeys (o : Opt) : List String := (o.dependencies.getD []).map Prod.fst

/-- The dependency ids of the option stored under `id`, empty when the id is
not a key. -/
def depKeysOf (opts : OptionSet) (id : String) : List String :=
  match lookupOpt opts id with
  | none => []
  | some o => depKeys o

/-- Invariant of a well-formed option set (spec section 3): every id
referenced inside a dependencies mapping is itself a key. -/
def Closed (opts : OptionSet) : Prop :=
  ∀ p ∈ opts, ∀ d ∈ depKeys p.2, d ∈ keys opts

instance : DecidablePred Closed := fun opts =>
  inferInstanceAs (Decidable (∀ p ∈ opts, ∀ d ∈ depKeys p.2, d ∈ keys opts))

/-- One dependency edge: option `a` declares a dependency on option `b`. -/
def depAdj (opts : OptionSet) (a b : String) : Prop := b ∈ depKeysOf opts a

/-- Acyclicity of the dependency relation: no id depends on itself through a
chain of dependency edges. -/
def Acyclic (opts : OptionSet) : Prop :=
  ∀ x, ¬ Relation.TransGen (depAdj opts) x x

/-! Resolver, lines 161-220 of the source. -/

/-- Collection of linked ids (lines 167-173): for every entry carrying a
dependencies property, push the entry id and then every dependency id;
forEach push over the entries in order is concatenation. -/
def linkedOptions (opts : OptionSet) : List String :=
  opts.flatMap (fun p =>
    match p.2.dependencies with
    | none => []
    | some deps => p.1 :: deps.map Prod.fst)

/-- Insertion of an element at a given position, used by the sort model. -/
def insertAt : Nat → α → List α → List α
  | 0, x, l => x :: l
  | _ + 1, x, [] => [x]
  | n + 1, x, y :: l => y :: insertAt n x l

/-- Binary search for the insertion position of a pivot, exactly the
binary-insertion step of the V8 TimSort implementation of
Array.prototype.sort: while lo < hi, compare the pivot against the middle
element and move the matching bound. The first argument is the loop variant
hi - lo, so the recursion is structural and the caller passes it exactly. -/
def bInsertPos (cmp : α → α → Int) (pivot : α) (s : List α) : Nat → Nat → Nat → Nat
  | 0, lo, _ => lo
  | fuel + 1, lo, hi =>
    if lo < hi then
      let mid := lo + (hi - lo) / 2
      if cmp pivot (s.getD mid pivot) < 0 then bInsertPos cmp pivot s fuel lo mid
      else bInsertPos cmp pivot s fuel (mid + 1) hi
    else lo

/-- Model of Array.prototype.sort with a user comparator, as executed by V8
(the engine hosting VS Code extensions) on the short arrays this code sorts:
each element in turn is inserted into the sorted prefix at the position
found by binary search. The comparators the source passes (lines 177 and
206-208) are inconsistent (they inspect only the first argument), so the
ECMAScript specification leaves the order implementation-defined and the
stable-sort guarantee does not apply; this model reproduces what V8 does. -/
def jsSortShort (cmp : α → α → Int) (l : List α) : List α :=
  l.foldl (fun acc x => insertAt (bInsertPos cmp x acc acc.length 0 acc.length) x acc) []

/-- Comparator shape of both sort calls in the source: minus one when the
first argument satisfies the flag, zero otherwise. -/
def jsCmpFlag (p : α → Bool) (a _b : α) : Int := if p a then -1 else 0

/-- Test of line 177: the looked-up option type is DROPDOWN. -/
def isDropdownB (opts : OptionSet) (x : String) : Bool :=
  (lookupOpt opts x).map (fun o => o.type) == some OptType.DROPDOWN

/-- Test of lines 206-208 and 253: the looked-up option type is CHECKBOX
(optional chaining makes a missing id compare unequal to CHECKBOX). -/
def isCheckboxB (opts : OptionSet) (x : String) : Bool :=
  (lookupOpt opts x).map (fun o => o.type) == some OptType.CHECKBOX

/-- The dropdown-grouping sort of lines 175-177. -/
def groupDropdowns (opts : OptionSet) (l : List String) : List String :=
  jsSortShort (jsCmpFlag (isDropdownB opts)) l

/-- The checkbox-first sort of the full key list, lines 206-208. -/
def ckSortedKeys (opts : OptionSet) : List String :=
  jsSortShort (jsCmpFlag (isCheckboxB opts)) (keys opts)

/-- Sequential traversal of a list of ids by the visit function, threading
the (visited, result) state: `Object.keys(dependencies).forEach(visit)` and
`arr.forEach(visit)`. -/
def goDeps (v : String → (List String × List String) → Option (List String × List String)) :
    List String → (List String × List String) → Option (List String × List String)
  | [], st => some st
  | d :: ds, st =>
    match v d st with
    | none => none
    | some st1 => goDeps v ds st1

/-- The recursive visit of lines 183-194, indexed by fuel bounding the
recursion depth. The state is (visited ids, emitted result). A visited id
returns at once; otherwise the id is marked, its dependency ids are visited
first, and the id is appended after them. The fuel only bounds the nesting
depth of unvisited calls, which under closedness never exceeds the number
of keys, so the fixed fuel passed by `topologicalSort` is never exhausted
there; `none` covers both exhausted fuel and the TypeError the source
throws when it looks up an id that is not a key. -/
def visitF (opts : OptionSet) :
    Nat → String → (List String × List String) → Option (List String × List String)
  | 0, _, _ => none
  | f + 1, id, st =>
    if st.1.contains id then some st
    else
      match lookupOpt opts id with
      | none => none
      | some o =>
        match goDeps (fun d st' => visitF opts f d st') (depKeys o) (id :: st.1, st.2) with
        | none => none
        | some st2 => some (st2.1, st2.2 ++ [id])

/-- The topological pass of lines 179-199: fresh visited map and result,
then visit every id of the input array in order. -/
def topologicalSort (opts : OptionSet) (arr : List String) : Option (List String) :=
  (goDeps (fun d st => visitF opts (opts.length + 1) d st) arr ([], [])).map Prod.snd

/-- The de-duplication filter of line 211:
`filter((v, i, arr) => arr.indexOf(v) === i)` keeps exactly the first
occurrence of every id. -/
def jsDedupe (l : List String) : List String :=
  (l.enum.filter (fun p => l.indexOf p.2 == p.1)).map Prod.snd

/-- The full resolution order of lines 162-211: topologically sorted linked
ids (grouped dropdowns first), then the checkbox-first sorted key list,
de-duplicated by first occurrence. -/
def idOrder (opts : OptionSet) : Option (List String) :=
  (topologicalSort opts (groupDropdowns opts (linkedOptions opts))).map
    (fun linked => jsDedupe (linked ++ ckSortedKeys opts))

/-! Cluster segmentation, the unit structure walked by the collection loop
of lines 222-261. -/

/-- One presentation unit: a checkbox cluster or a singleton
(dropdown or text) unit. -/
inductive PresUnit
  | cluster (ids : List String)
  | single (id : String)
deriving DecidableEq

/-- The ids of one presentation unit, in presentation order. -/
def unitIds : PresUnit → List String
  | PresUnit.cluster ids => ids
  | PresUnit.single id => [id]

/-- Whether a presentation unit is a cluster. -/
def isCluster : PresUnit → Prop
  | PresUnit.cluster _ => True
  | PresUnit.single _ => False

/-- The segmentation the collection loop performs on the resolved order:
a CHECKBOX id at the cursor absorbs the maximal following run of CHECKBOX
ids into one cluster (the do-while of lines 237-261, whose guard
`options[idOrder[i]]?.type !== "CHECKBOX"` stops at the first id that is
missing or not a checkbox); any other id forms a singleton unit. A missing
id at the cursor itself makes the source destructuring throw, modeled as
none. -/
def segmentUnits (opts : OptionSet) : List String → Option (List PresUnit)
  | [] => some []
  | id :: rest =>
    match lookupOpt opts id with
    | none => none
    | some o =>
      match o.type with
      | OptType.CHECKBOX =>
        (segmentUnits opts (rest.dropWhile (isCheckboxB opts))).map
          (fun us => PresUnit.cluster (id :: rest.takeWhile (isCheckboxB opts)) :: us)
      | _ => (segmentUnits opts rest).map (fun us => PresUnit.single id :: us)
termination_by l => l.length
decreasing_by
  all_goals simp only [List.length_cons]
  · exact Nat.lt_succ_of_le (by
      induction rest with
      | nil => simp [List.dropWhile]
      | cons a l ih =>
        rw [List.dropWhile_cons]
        by_cases h : isCheckboxB opts a
        · simp only [h, if_true]
          exact Nat.le_succ_of_le ih
        · simp [h])
  · exact Nat.lt_succ_self _

/-! Dependency evaluator, lines 274-292 of the source. -/

/-- The user value map `userOptionValues`, a JavaScript object: setting an
existing key overwrites in place, a new key is appended. -/
def jsSet (m : List (String × JSVal)) (k : String) (v : JSVal) : List (String × JSVal) :=
  if m.any (fun p => p.1 == k) then m.map (fun p => if p.1 == k then (k, v) else p)
  else m ++ [(k, v)]

/-- Property read `userOptionValues[k]`; `none` is the JavaScript undefined
of an absent key. -/
def jsGet (m : List (String × JSVal)) (k : String) : Option JSVal :=
  (m.find? (fun p => p.1 == k)).map Prod.snd

/-- One dependency pair check of lines 280-289: the pair is satisfied when
the list of acceptable values contains the confirmed value of the
referenced id (`depVals.includes(userOptionValues[depId])`, false when the
id has no entry, since an option value list never contains undefined), or
contains the boolean coercion of the tentative selection test
`!!selectedItems.find(i => i.id === depId)`. -/
def depPairSat (confirmed : List (String × JSVal)) (selected : List String)
    (depId : String) (depVals : List JSVal) : Bool :=
  (match jsGet confirmed depId with
   | some v => depVals.contains v
   | none => false)
  || depVals.contains (JSVal.bool (selected.contains depId))

/-- The per-option visibility predicate of the getVisibleOptions filter
body: an option without a dependencies property is always visible,
otherwise every dependency pair must be satisfied. -/
def isSatisfiedOpt (o : Opt) (confirmed : List (String × JSVal))
    (selected : List String) : Bool :=
  match o.dependencies with
  | none => true
  | some deps => deps.all (fun p => depPairSat confirmed selected p.1 p.2)

/-- The visible subset of a checkbox cluster, getVisibleOptions of lines
274-292: filter the cluster by the per-option predicate. A cluster id that
is not a key would make the source throw; the cluster always comes from the
resolved order, whose ids are keys, and every theorem about this function
carries that hypothesis, so the none branch is never reached there. -/
def getVisibleOptions (opts : OptionSet) (confirmed : List (String × JSVal))
    (selected : List String) (cluster : List String) : List String :=
  cluster.filter (fun id =>
    match lookupOpt opts id with
    | some o => isSatisfiedOpt o confirmed selected
    | none => true)

/-! Interactive collector, lines 222-448 of the source, as a pure function
over a script of prompt results. -/

/-- The result of one suspension point, as returned by the host UI:
a text input (none when the input box is dismissed), a dropdown pick
(none when the quick pick is dismissed), or a cluster acceptance carrying
the selected ids (none when the quick pick is hidden without accepting). -/
inductive Resp
  | text (r : Option String)
  | pick (r : Option String)
  | clusterSel (r : Option (List String))
deriving DecidableEq

/-- Whether a response is a dismissal of its prompt. -/
def isDismiss : Resp → Bool
  | Resp.text none => true
  | Resp.pick none => true
  | Resp.clusterSel none => true
  | _ => false

/-- The collection loop of lines 222-422, consuming one response per
suspension point. CHECKBOX: absorb the maximal checkbox run, write the
default false for every member (line 238), then on acceptance write true
for every selected id (lines 360-362); dismissal returns none (lines
356-358). DROPDOWN: write the first choice as default (line 367), then the
picked label (line 392); dismissal returns none. TEXT: write the empty
default (line 399); the guard `if (!selectedValue)` of line 409 is truthy
for both undefined and the empty string, so submitting "" also ends the
run. A response of a shape the active prompt cannot produce, a pick of a
label outside the displayed choices, or a cluster selection containing an
id outside the displayed cluster cannot arise from the host UI and is
modeled as none, like a missing script entry. A missing id at the cursor
makes the source destructuring throw, modeled as none. -/
def collectLoop (opts : OptionSet) :
    List Resp → List (String × JSVal) → List String → Option (List (String × JSVal))
  | _, vals, [] => some vals
  | [], _, _ :: _ => none
  | resp :: resps, vals, id :: rest =>
    match lookupOpt opts id with
    | none => none
    | some o =>
      match o.type with
      | OptType.CHECKBOX =>
        let cluster := id :: rest.takeWhile (isCheckboxB opts)
        let rest' := rest.dropWhile (isCheckboxB opts)
        let vals1 := cluster.foldl (fun v m => jsSet v m (JSVal.bool false)) vals
        match resp with
        | Resp.clusterSel (some sel) =>
          if sel.all (fun s => cluster.contains s) then
            collectLoop opts resps
              (sel.foldl (fun v m => jsSet v m (JSVal.bool true)) vals1) rest'
          else none
        | _ => none
      | OptType.DROPDOWN =>
        let vals1 := match o.choices.head? with
          | some c => jsSet vals id (JSVal.str c)
          | none => vals
        match resp with
        | Resp.pick (some s) =>
          if o.choices.contains s then
            collectLoop opts resps (jsSet vals1 id (JSVal.str s)) rest
          else none
        | _ => none
      | OptType.TEXT =>
        let vals1 := jsSet vals id (JSVal.str "")
        match resp with
        | Resp.text (some s) =>
          if s = "" then none
          else collectLoop opts resps (jsSet vals1 id (JSVal.str s)) rest
        | _ => none

/-- The values handed to the job submission call of lines 443-448: the
completed collection result, gated by the confirmation dialog of lines
424-440 (`if (confirm !== "Obfuscate") return;`). `none` means
createNewJob is never called and no user value map leaves the run. -/
def submittedJobValues (opts : OptionSet) (order : List String)
    (resps : List Resp) (confirmOk : Bool) : Option (List (String × JSVal)) :=
  match collectLoop opts resps [] order with
  | none => none
  | some vals => if confirmOk then some vals else none

/-- Modeled from the spec (section 4.1 step 2), for comparison with the
code: a stable partition moving dropdown ids first while preserving the
relative order inside each group. -/
def specStableDropdownPartition (opts : OptionSet) (l : List String) : List String :=
  l.filter (isDropdownB opts) ++ l.filter (fun x => ! isDropdownB opts x)

/-- Dependency-before-dependent property of an emitted id sequence: every
emitted id has all its dependency ids emitted strictly before it. -/
def emitsDepsFirst (opts : OptionSet) (res : List String) : Prop :=
  ∀ a ∈ res, ∀ b ∈ depKeysOf opts a, b ∈ res ∧ res.indexOf b < res.indexOf a

/-- Shape of one well-formed presentation unit: a cluster is non-empty and
holds only checkbox ids, a singleton holds a non-checkbox id. -/
def unitWellFormed (opts : OptionSet) : PresUnit → Prop
  | PresUnit.cluster c => c ≠ [] ∧ ∀ x ∈ c, isCheckboxB opts x = true
  | PresUnit.single s => isCheckboxB opts s = false

/-- Well-typedness of the final user value map at one id: a checkbox id
maps to a boolean, a text id maps to a string, a dropdown id maps to one of
its declared choices. -/
def wellTypedAt (opts : OptionSet) (final : List (String × JSVal)) (id : String) : Prop :=
  ∀ o, lookupOpt opts id = some o →
    match o.type with
    | OptType.CHECKBOX => ∃ b, jsGet final id = some (JSVal.bool b)
    | OptType.TEXT => ∃ s, jsGet final id = some (JSVal.str s)
    | OptType.DROPDOWN => ∃ s, jsGet final id = some (JSVal.str s) ∧ s ∈ o.choices

/-! Concrete option sets used by witnesses and counterexamples. -/

/-- Witness option set: a checkbox B, a checkbox A depending on B,
a dropdown C and a text option T. -/
def optsW : OptionSet :=
  [("B", ⟨OptType.CHECKBOX, [], none⟩),
   ("A", ⟨OptType.CHECKBOX, [], some [("B", [JSVal.bool true])]⟩),
   ("C", ⟨OptType.DROPDOWN, ["x", "y"], none⟩),
   ("T", ⟨OptType.TEXT, [], none⟩)]

/-- Counterexample option set for the grouping step: two dropdowns d1 and
d2 both depending on the checkbox x, so that the linked collection is
[d1, x, d2, x]. -/
def optsD : OptionSet :=
  [("d1", ⟨OptType.DROPDOWN, ["a"], some [("x", [JSVal.bool true])]⟩),
   ("x", ⟨OptType.CHECKBOX, [], none⟩),
   ("d2", ⟨OptType.DROPDOWN, ["a"], some [("x", [JSVal.bool true])]⟩)]

/-- Counterexample option set for the evaluator: option O depends on the
unreached checkbox Z with acceptable value false. -/
def optsU : OptionSet :=
  [("O", ⟨OptType.CHECKBOX, [], some [("Z", [JSVal.bool false])]⟩),
   ("Z", ⟨OptType.CHECKBOX, [], none⟩)]

/-- Witness option set with a dependency cycle between X and Y, used to
exercise the cycle tolerance of the topological pass. -/
def optsC : OptionSet :=
  [("X", ⟨OptType.CHECKBOX, [], some [("Y", [JSVal.bool true])]⟩),
   ("Y", ⟨OptType.CHECKBOX, [], some [("X", [JSVal.bool true])]⟩)]

/-! Generic list and JavaScript-object lemmas. -/

theorem indexOf_append_notMem {x : String} {l : List String} (t : List String)
    (h : x ∉ l) : (l ++ t).indexOf x = l.length + t.indexOf x := by
  induction l with
  | nil => simp
  | cons a l ih =>
    have hxa : (a == x) = false := by
      simp only [beq_eq_false_iff_ne, ne_eq]
      intro hax
      exact h (hax ▸ List.mem_cons_self a l)
    have hxl : x ∉ l := fun hm => h (List.mem_cons_of_mem a hm)
    simp only [List.cons_append, List.indexOf_cons, hxa, cond_false, ih hxl,
      List.length_cons]
    omega

theorem length_dropWhile_le (p : α → Bool) (l : List α) :
    (l.dropWhile p).length ≤ l.length :=
  (List.dropWhile_sublist p).length_le

theorem lookupOpt_entry {opts : OptionSet} {x : String} {o : Opt}
    (h : lookupOpt opts x = some o) : ∃ p ∈ opts, p.1 = x ∧ p.2 = o := by
  unfold lookupOpt at h
  rcases Option.map_eq_some'.1 h with ⟨p, hfind, hsnd⟩
  have hp := List.find?_some hfind
  exact ⟨p, List.mem_of_find?_eq_some hfind, beq_iff_eq.1 hp, hsnd⟩

theorem lookupOpt_isSome_of_mem_keys {opts : OptionSet} {x : String}
    (h : x ∈ keys opts) : ∃ o, lookupOpt opts x = some o := by
  rcases List.mem_map.1 h with ⟨p, hp, hfst⟩
  have : (List.find? (fun q => q.1 == x) opts).isSome :=
    List.find?_isSome.2 ⟨p, hp, by simp [hfst]⟩
  rcases Option.isSome_iff_exists.1 this with ⟨q, hq⟩
  exact ⟨q.2, by simp [lookupOpt, hq]⟩

theorem mem_keys_of_lookupOpt {opts : OptionSet} {x : String} {o : Opt}
    (h : lookupOpt opts x = some o) : x ∈ keys opts := by
  rcases lookupOpt_entry h with ⟨p, hp, hfst, _⟩
  exact hfst ▸ List.mem_map_of_mem Prod.fst hp

theorem depKeysOf_eq_depKeys {opts : OptionSet} {x : String} {o : Opt}
    (h : lookupOpt opts x = some o) : depKeysOf opts x = depKeys o := by
  simp [depKeysOf, h]

theorem depKeysOf_subset_keys {opts : OptionSet} (hC : Closed opts)
    (x : String) : ∀ d ∈ depKeysOf opts x, d ∈ keys opts := by
  intro d hd
  unfold depKeysOf at hd
  split at hd
  · simp at hd
  · next o hx =>
    rcases lookupOpt_entry hx with ⟨p, hp, _, hsnd⟩
    exact hC p hp d (hsnd ▸ hd)

/-! Lemmas about the JavaScript object model of the user value map. -/

theorem jsGet_map_setKey_self {k : String} {v : JSVal} :
    ∀ m : List (String × JSVal), m.any (fun p => p.1 == k) = true →
      jsGet (m.map (fun p => if p.1 == k then (k, v) else p)) k = some v := by
  intro m
  induction m with
  | nil => intro h; simp at h
  | cons p m ih =>
    intro h
    by_cases hp : (p.1 == k) = true
    · simp [jsGet, hp, List.find?]
    · have hm : m.any (fun p => p.1 == k) = true := by
        simp only [List.any_cons, hp, Bool.false_or] at h
        exact h
      simpa [jsGet, hp, List.find?] using ih hm

theorem jsGet_map_setKey_ne {k x : String} {v : JSVal} (hx : x ≠ k) :
    ∀ m : List (String × JSVal),
      jsGet (m.map (fun p => if p.1 == k then (k, v) else p)) x = jsGet m x := by
  intro m
  induction m with
  | nil => rfl
  | cons p m ih =>
    by_cases hp : (p.1 == k) = true
    · have hpk : p.1 = k := beq_iff_eq.1 hp
      have h1 : (k == x) = false := by simp [beq_eq_false_iff_ne]; exact fun h => hx h.symm
      have h2 : (p.1 == x) = false := by rw [hpk]; exact h1
      simpa [jsGet, hp, List.find?, h1, h2] using ih
    · by_cases hq : (p.1 == x) = true
      · simp [jsGet, hp, List.find?, hq]
      · simpa [jsGet, hp, List.find?, hq] using ih

theorem jsGet_jsSet_self (m : List (String × JSVal)) (k : String) (v : JSVal) :
    jsGet (jsSet m k v) k = some v := by
  unfold jsSet
  split
  · next h => exact jsGet_map_setKey_self m h
  · next h =>
    have hnone : List.find? (fun p => p.1 == k) m = none := by
      rw [List.find?_eq_none]
      intro p hp hk
      exact h (List.any_eq_true.2 ⟨p, hp, hk⟩)
    simp [jsGet, List.find?_append, hnone, List.find?]

theorem jsGet_jsSet_ne (m : List (String × JSVal)) (k x : String) (v : JSVal)
    (hx : x ≠ k) : jsGet (jsSet m k v) x = jsGet m x := by
  unfold jsSet
  split
  · exact jsGet_map_setKey_ne hx m
  · have h1 : (k == x) = false := by simp [beq_eq_false_iff_ne]; exact fun h => hx h.symm
    simp [jsGet, List.find?_append, List.find?, h1]

theorem jsGet_foldl_const_notMem (c : JSVal) :
    ∀ (ids : List String) (vals : List (String × JSVal)) (x : String), x ∉ ids →
      jsGet (ids.foldl (fun v m => jsSet v m c) vals) x = jsGet vals x := by
  intro ids
  induction ids with
  | nil => intro vals x _; rfl
  | cons a ids ih =>
    intro vals x hx
    have hxa : x ≠ a := fun h => hx (h ▸ List.mem_cons_self a ids)
    have hxl : x ∉ ids := fun h => hx (List.mem_cons_of_mem a h)
    rw [List.foldl_cons, ih _ x hxl, jsGet_jsSet_ne _ _ _ _ hxa]

theorem jsGet_foldl_const_mem (c : JSVal) :
    ∀ (ids : List String) (vals : List (String × JSVal)) (x : String), x ∈ ids →
      jsGet (ids.foldl (fun v m => jsSet v m c) vals) x = some c := by
  intro ids
  induction ids with
  | nil => intro vals x hx; simp at hx
  | cons a ids ih =>
    intro vals x hx
    by_cases hxl : x ∈ ids
    · rw [List.foldl_cons]; exact ih _ x hxl
    · have hxa : x = a := by
        rcases List.mem_cons.1 hx with h | h
        · exact h
        · exact absurd h hxl
      rw [List.foldl_cons, jsGet_foldl_const_notMem c ids _ x hxl, hxa,
        jsGet_jsSet_self]

/-! Characterization of the sort model on the comparators the source uses. -/

theorem insertAt_length_eq (x : α) : ∀ l : List α, insertAt l.length x l = l ++ [x] := by
  intro l
  induction l with
  | nil => rfl
  | cons y l ih => simp [insertAt, ih]

theorem bInsertPos_allNeg {cmp : α → α → Int} {pivot : α} {s : List α}
    (h : ∀ y, cmp pivot y < 0) : ∀ fuel lo hi, bInsertPos cmp pivot s fuel lo hi = lo := by
  intro fuel
  induction fuel with
  | zero => intro lo hi; rfl
  | succ fuel ih =>
    intro lo hi
    unfold bInsertPos
    by_cases hlt : lo < hi
    · simp only [hlt, if_true, h _, if_pos]
      exact ih lo _
    · simp [hlt]

theorem bInsertPos_allNonneg {cmp : α → α → Int} {pivot : α} {s : List α}
    (h : ∀ y, ¬ cmp pivot y < 0) :
    ∀ fuel lo hi, lo ≤ hi → hi - lo ≤ fuel → bInsertPos cmp pivot s fuel lo hi = hi := by
  intro fuel
  induction fuel with
  | zero =>
    intro lo hi hle hf
    have : lo = hi := by omega
    simp [bInsertPos, this]
  | succ fuel ih =>
    intro lo hi hle hf
    unfold bInsertPos
    by_cases hlt : lo < hi
    · simp only [hlt, if_true, if_neg (h _)]
      exact ih _ hi (by omega) (by omega)
    · have : lo = hi := by omega
      simp [hlt, this]

theorem jsSortShort_step (p : α → Bool) (x : α) (acc : List α) :
    insertAt (bInsertPos (jsCmpFlag p) x acc acc.length 0 acc.length) x acc =
      if p x then x :: acc else acc ++ [x] := by
  by_cases hp : p x
  · rw [bInsertPos_allNeg (fun y => by simp [jsCmpFlag, hp])]
    simp [hp, insertAt]
  · rw [bInsertPos_allNonneg (fun y => by simp [jsCmpFlag, hp]) _ _ _ (Nat.zero_le _)
      (by omega), insertAt_length_eq]
    simp [hp]

theorem jsSortShort_flag (p : α → Bool) (l : List α) :
    jsSortShort (jsCmpFlag p) l =
      (l.filter p).reverse ++ l.filter (fun x => ! p x) := by
  suffices h : ∀ (l : List α) (D N : List α),
      l.foldl (fun acc x =>
        insertAt (bInsertPos (jsCmpFlag p) x acc acc.length 0 acc.length) x acc) (D ++ N) =
        ((l.filter p).reverse ++ D) ++ (N ++ l.filter (fun x => ! p x)) by
    have h0 := h l [] []
    simpa [jsSortShort] using h0
  intro l
  induction l with
  | nil => intro D N; simp
  | cons x l ih =>
    intro D N
    rw [List.foldl_cons, jsSortShort_step]
    by_cases hp : p x
    · have hx : (D ++ N : List α).cons x = (x :: D) ++ N := by simp
      rw [if_pos hp, hx, ih (x :: D) N]
      simp [List.filter_cons, hp]
    · rw [if_neg hp, List.append_assoc, ih D (N ++ [x])]
      simp [List.filter_cons, hp]

theorem mem_jsSortShort_flag (p : α → Bool) (l : List α) (x : α) :
    x ∈ jsSortShort (jsCmpFlag p) l ↔ x ∈ l := by
  rw [jsSortShort_flag]
  simp only [List.mem_append, List.mem_reverse, List.mem_filter]
  constructor
  · rintro (⟨h, _⟩ | ⟨h, _⟩) <;> exact h
  · intro h
    by_cases hp : p x
    · exact Or.inl ⟨h, hp⟩
    · exact Or.inr ⟨h, by simp [hp]⟩

/-! Lemmas about the de-duplication filter. -/

theorem jsDedupe_append_single (l : List String) (y : String) :
    jsDedupe (l ++ [y]) = jsDedupe l ++ (if y ∈ l then [] else [y]) := by
  unfold jsDedupe
  rw [List.enum_append]
  have henum : List.enumFrom l.length [y] = [(l.length, y)] := rfl
  rw [henum, List.filter_append, List.map_append]
  have hleft : List.filter (fun p => (l ++ [y]).indexOf p.2 == p.1) l.enum =
      List.filter (fun p => l.indexOf p.2 == p.1) l.enum := by
    apply List.filter_congr
    intro q hq
    have hsnd : q.2 ∈ l := by
      rw [List.enum_eq_zip_range] at hq
      rcases q with ⟨i, v⟩
      exact (List.of_mem_zip hq).2
    rw [List.indexOf_append_of_mem hsnd]
  rw [hleft]
  congr 1
  by_cases hy : y ∈ l
  · have hlt : l.indexOf y < l.length := List.indexOf_lt_length.2 hy
    have hcond : ((l ++ [y]).indexOf y == l.length) = false := by
      rw [List.indexOf_append_of_mem hy]
      simp only [beq_eq_false_iff_ne, ne_eq]
      omega
    simp [hy, List.filter, hcond]
  · have hone : List.indexOf y [y] = 0 := by simp [List.indexOf_cons]
    have hcond : ((l ++ [y]).indexOf y == l.length) = true := by
      rw [indexOf_append_notMem _ hy, hone]
      simp
    simp [hy, List.filter, hcond]

theorem jsDedupe_of_nodup : ∀ l : List String, l.Nodup → jsDedupe l = l := by
  intro l
  induction l using List.reverseRecOn with
  | nil => intro _; rfl
  | append_singleton l y ih =>
    intro h
    rw [List.nodup_append] at h
    rcases h with ⟨hl, _, hdisj⟩
    have hy : y ∉ l := fun hm => hdisj hm (List.mem_singleton_self y)
    rw [jsDedupe_append_single, if_neg hy, ih hl]

theorem jsDedupe_mem : ∀ (l : List String) (x : String), x ∈ jsDedupe l ↔ x ∈ l := by
  intro l
  induction l using List.reverseRecOn with
  | nil => intro x; simp [jsDedupe]
  | append_singleton l y ih =>
    intro x
    rw [jsDedupe_append_single]
    by_cases hy : y ∈ l
    · rw [if_pos hy]
      simp only [List.append_nil, List.mem_append, List.mem_singleton, ih]
      constructor
      · exact Or.inl
      · rintro (h | rfl)
        · exact h
        · exact hy
    · rw [if_neg hy]
      simp [ih]

theorem jsDedupe_nodup : ∀ l : List String, (jsDedupe l).Nodup := by
  intro l
  induction l using List.reverseRecOn with
  | nil => simp [jsDedupe]
  | append_singleton l y ih =>
    rw [jsDedupe_append_single]
    by_cases hy : y ∈ l
    · simpa [hy] using ih
    · rw [if_neg hy, List.nodup_append]
      refine ⟨ih, List.nodup_singleton y, ?_⟩
      intro a ha hb
      rw [List.mem_singleton] at hb
      subst hb
      exact hy ((jsDedupe_mem l _).1 ha)

theorem jsDedupe_append_of_nodup (R : List String) (hR : R.Nodup) :
    ∀ t : List String, ∃ T, jsDedupe (R ++ t) = R ++ T := by
  intro t
  induction t using List.reverseRecOn with
  | nil => exact ⟨[], by simp [jsDedupe_of_nodup R hR]⟩
  | append_singleton t y ih =>
    rcases ih with ⟨T, hT⟩
    refine ⟨T ++ (if y ∈ R ++ t then [] else [y]), ?_⟩
    rw [← List.append_assoc, jsDedupe_append_single, hT, List.append_assoc]

/-! Lemmas about the fueled depth-first visit of the topological pass. -/

theorem filter_length_mono {p q : α → Bool} :
    ∀ L : List α, (∀ x, p x = true → q x = true) →
      (L.filter p).length ≤ (L.filter q).length := by
  intro L himp
  induction L with
  | nil => simp
  | cons a L ih =>
    by_cases hp : p a = true
    · rw [List.filter_cons_of_pos hp, List.filter_cons_of_pos (himp a hp)]
      simpa using ih
    · rw [List.filter_cons_of_neg (by simp [hp])]
      by_cases hq : q a = true
      · rw [List.filter_cons_of_pos hq]
        exact le_trans ih (by simp)
      · rw [List.filter_cons_of_neg (by simp [hq])]
        exact ih

theorem filter_unvisited_decrease (id : String) :
    ∀ (L : List String) (vis : List String), id ∈ L → id ∉ vis →
      ((L.filter (fun k => ! (id :: vis).contains k)).length <
        (L.filter (fun k => ! vis.contains k)).length) := by
  intro L
  induction L with
  | nil => intro vis h; simp at h
  | cons a L ih =>
    intro vis hid hnvis
    have himp : ∀ x : String,
        (! (id :: vis).contains x) = true → (! vis.contains x) = true := by
      intro x hx
      simp only [Bool.not_eq_true'] at hx ⊢
      exact (Bool.or_eq_false_iff.1 hx).2
    by_cases ha : a = id
    · subst ha
      rw [List.filter_cons_of_neg (by simp), List.filter_cons_of_pos (by simpa using hnvis)]
      exact Nat.lt_succ_of_le (filter_length_mono L himp)
    · have hidL : id ∈ L := by
        rcases List.mem_cons.1 hid with h | h
        · exact absurd h.symm ha
        · exact h
      by_cases hv : a ∈ vis
      · rw [List.filter_cons_of_neg (by simp [hv]), List.filter_cons_of_neg (by simp [hv])]
        exact ih vis hidL hnvis
      · rw [List.filter_cons_of_pos (by simp [ha, hv]),
          List.filter_cons_of_pos (by simpa using hv)]
        simpa using ih vis hidL hnvis

theorem visit_basic (opts : OptionSet) (hC : Closed opts) :
    ∀ f : Nat,
      (∀ id vis res, id ∈ keys opts →
        ((keys opts).filter (fun k => ! vis.contains k)).length < f →
        (∀ x ∈ res, x ∈ vis) →
        ∃ vis' res₂,
          visitF opts f id (vis, res) = some (vis', res ++ res₂) ∧
          (∀ x, x ∈ vis' ↔ x ∈ vis ∨ x ∈ res₂) ∧
          (∀ x ∈ res₂, x ∉ vis ∧ x ∈ keys opts) ∧
          res₂.Nodup ∧ id ∈ vis') ∧
      (∀ ds vis res, (∀ d ∈ ds, d ∈ keys opts) →
        ((keys opts).filter (fun k => ! vis.contains k)).length < f →
        (∀ x ∈ res, x ∈ vis) →
        ∃ vis' res₂,
          goDeps (fun d st => visitF opts f d st) ds (vis, res) = some (vis', res ++ res₂) ∧
          (∀ x, x ∈ vis' ↔ x ∈ vis ∨ x ∈ res₂) ∧
          (∀ x ∈ res₂, x ∉ vis ∧ x ∈ keys opts) ∧
          res₂.Nodup ∧ ∀ d ∈ ds, d ∈ vis') := by
  intro f
  induction f with
  | zero =>
    constructor
    · intro id vis res _ hf _
      omega
    · intro ds vis res _ hf _
      omega
  | succ f ih =>
    obtain ⟨ihA, ihB⟩ := ih
    have hA : ∀ id vis res, id ∈ keys opts →
        ((keys opts).filter (fun k => ! vis.contains k)).length < f + 1 →
        (∀ x ∈ res, x ∈ vis) →
        ∃ vis' res₂,
          visitF opts (f + 1) id (vis, res) = some (vis', res ++ res₂) ∧
          (∀ x, x ∈ vis' ↔ x ∈ vis ∨ x ∈ res₂) ∧
          (∀ x ∈ res₂, x ∉ vis ∧ x ∈ keys opts) ∧
          res₂.Nodup ∧ id ∈ vis' := by
      intro id vis res hid hf hres
      by_cases hvis : id ∈ vis
      · refine ⟨vis, [], ?_, ?_, ?_, List.nodup_nil, hvis⟩
        · simp [visitF, hvis]
        · simp
        · simp
      · obtain ⟨o, ho⟩ := lookupOpt_isSome_of_mem_keys hid
        have hdeps : ∀ d ∈ depKeys o, d ∈ keys opts := by
          rcases lookupOpt_entry ho with ⟨p, hp, _, hsnd⟩
          intro d hd
          exact hC p hp d (hsnd ▸ hd)
        have hfuel2 :
            ((keys opts).filter (fun k => ! (id :: vis).contains k)).length < f := by
          have hdec := filter_unvisited_decrease id (keys opts) vis hid hvis
          omega
        have hres2 : ∀ x ∈ res, x ∈ id :: vis := fun x hx =>
          List.mem_cons_of_mem _ (hres x hx)
        obtain ⟨vis₂, r₂, hgo, hiff, hfresh, hnd, hds⟩ :=
          ihB (depKeys o) (id :: vis) res hdeps hfuel2 hres2
        refine ⟨vis₂, r₂ ++ [id], ?_, ?_, ?_, ?_, ?_⟩
        · simp [visitF, hvis, ho, hgo]
        · intro x
          rw [hiff x]
          simp only [List.mem_cons, List.mem_append, List.mem_singleton]
          tauto
        · intro x hx
          rcases List.mem_append.1 hx with hx | hx
          · obtain ⟨hnv, hk⟩ := hfresh x hx
            exact ⟨fun hc => hnv (List.mem_cons_of_mem _ hc), hk⟩
          · rw [List.mem_singleton] at hx
            subst hx
            exact ⟨hvis, hid⟩
        · rw [List.nodup_append]
          refine ⟨hnd, List.nodup_singleton id, ?_⟩
          intro a ha hb
          rw [List.mem_singleton] at hb
          subst hb
          exact (hfresh a ha).1 (List.mem_cons_self _ _)
        · exact (hiff id).2 (Or.inl (List.mem_cons_self _ _))
    refine ⟨hA, ?_⟩
    intro ds
    induction ds with
    | nil =>
      intro vis res _ _ _
      exact ⟨vis, [], by simp [goDeps], by simp, by simp, List.nodup_nil, by simp⟩
    | cons d ds ihds =>
      intro vis res hds hf hres
      obtain ⟨vis₁, r₁, hv, hiff₁, hfresh₁, hnd₁, hdv⟩ :=
        hA d vis res (hds d (List.mem_cons_self _ _)) hf hres
      have hsub : ∀ x ∈ vis, x ∈ vis₁ := fun x hx => (hiff₁ x).2 (Or.inl hx)
      have hf₁ : ((keys opts).filter (fun k => ! vis₁.contains k)).length < f + 1 := by
        have hmono := filter_length_mono (p := fun k => ! vis₁.contains k)
          (q := fun k => ! vis.contains k) (keys opts) (by
            intro x hx
            simp only [Bool.not_eq_true'] at hx ⊢
            have hx1 : x ∉ vis₁ := fun hm => by
              have ht : vis₁.contains x = true := List.elem_iff.2 hm
              rw [ht] at hx
              exact Bool.noConfusion hx
            have hx0 : x ∉ vis := fun hm => hx1 (hsub x hm)
            exact Bool.eq_false_iff.2 (fun hc => hx0 (List.elem_iff.1 hc)))
        omega
      have hres₁ : ∀ x ∈ res ++ r₁, x ∈ vis₁ := by
        intro x hx
        rcases List.mem_append.1 hx with hx | hx
        · exact hsub x (hres x hx)
        · exact (hiff₁ x).2 (Or.inr hx)
      obtain ⟨vis₂, r₂, hgo, hiff₂, hfresh₂, hnd₂, hds₂⟩ :=
        ihds vis₁ (res ++ r₁) (fun d' hd' => hds d' (List.mem_cons_of_mem _ hd')) hf₁ hres₁
      refine ⟨vis₂, r₁ ++ r₂, ?_, ?_, ?_, ?_, ?_⟩
      · simp [goDeps, hv, hgo]
      · intro x
        rw [hiff₂ x, hiff₁ x]
        simp only [List.mem_append]
        tauto
      · intro x hx
        rcases List.mem_append.1 hx with hx | hx
        · exact hfresh₁ x hx
        · obtain ⟨hnv, hk⟩ := hfresh₂ x hx
          exact ⟨fun hc => hnv (hsub x hc), hk⟩
      · rw [List.nodup_append]
        refine ⟨hnd₁, hnd₂, ?_⟩
        intro a ha hb
        exact (hfresh₂ a hb).1 ((hiff₁ a).2 (Or.inr ha))
      · intro d' hd'
        rcases List.mem_cons.1 hd' with hd' | hd'
        · subst hd'
          exact (hiff₂ d').2 (Or.inl hdv)
        · exact hds₂ d' hd'

theorem visit_order (opts : OptionSet) (hA : Acyclic opts) :
    ∀ f : Nat,
      (∀ (id : String) (P vis res vis' res' : List String),
        visitF opts f id (vis, res) = some (vis', res') →
        (∀ x, x ∈ vis ↔ x ∈ res ∨ x ∈ P) →
        res.Nodup →
        emitsDepsFirst opts res →
        (∀ a ∈ res, ∀ p ∈ P, p ∉ depKeysOf opts a) →
        (∀ p ∈ P, p ∉ res) →
        (∀ p ∈ P, Relation.TransGen (depAdj opts) p id) →
        (∀ x, x ∈ vis' ↔ x ∈ res' ∨ x ∈ P) ∧ res'.Nodup ∧
          emitsDepsFirst opts res' ∧
          (∀ a ∈ res', ∀ p ∈ P, p ∉ depKeysOf opts a) ∧
          (∀ p ∈ P, p ∉ res') ∧ (∃ r₂, res' = res ++ r₂) ∧ id ∈ vis') ∧
      (∀ (ds P vis res vis' res' : List String),
        goDeps (fun d st => visitF opts f d st) ds (vis, res) = some (vis', res') →
        (∀ x, x ∈ vis ↔ x ∈ res ∨ x ∈ P) →
        res.Nodup →
        emitsDepsFirst opts res →
        (∀ a ∈ res, ∀ p ∈ P, p ∉ depKeysOf opts a) →
        (∀ p ∈ P, p ∉ res) →
        (∀ p ∈ P, ∀ d ∈ ds, Relation.TransGen (depAdj opts) p d) →
        (∀ x, x ∈ vis' ↔ x ∈ res' ∨ x ∈ P) ∧ res'.Nodup ∧
          emitsDepsFirst opts res' ∧
          (∀ a ∈ res', ∀ p ∈ P, p ∉ depKeysOf opts a) ∧
          (∀ p ∈ P, p ∉ res') ∧ (∃ r₂, res' = res ++ r₂) ∧ ∀ d ∈ ds, d ∈ vis') := by
  intro f
  induction f with
  | zero =>
    constructor
    · intro id P vis res vis' res' hrun
      simp [visitF] at hrun
    · intro ds P vis res vis' res' hrun hinv hnd hgood hnoback hpres _
      cases ds with
      | nil =>
        simp only [goDeps, Option.some.injEq, Prod.mk.injEq] at hrun
        obtain ⟨hv, hr⟩ := hrun
        subst hv; subst hr
        exact ⟨hinv, hnd, hgood, hnoback, hpres, ⟨[], by simp⟩, by simp⟩
      | cons d ds => simp [goDeps, visitF] at hrun
  | succ f ih =>
    obtain ⟨_, ihB⟩ := ih
    have hA1 : ∀ (id : String) (P vis res vis' res' : List String),
        visitF opts (f + 1) id (vis, res) = some (vis', res') →
        (∀ x, x ∈ vis ↔ x ∈ res ∨ x ∈ P) →
        res.Nodup →
        emitsDepsFirst opts res →
        (∀ a ∈ res, ∀ p ∈ P, p ∉ depKeysOf opts a) →
        (∀ p ∈ P, p ∉ res) →
        (∀ p ∈ P, Relation.TransGen (depAdj opts) p id) →
        (∀ x, x ∈ vis' ↔ x ∈ res' ∨ x ∈ P) ∧ res'.Nodup ∧
          emitsDepsFirst opts res' ∧
          (∀ a ∈ res', ∀ p ∈ P, p ∉ depKeysOf opts a) ∧
          (∀ p ∈ P, p ∉ res') ∧ (∃ r₂, res' = res ++ r₂) ∧ id ∈ vis' := by
      intro id P vis res vis' res' hrun hinv hnd hgood hnoback hpres hreach
      have hressub : ∀ x ∈ res, x ∈ vis := fun x hx => (hinv x).2 (Or.inl hx)
      cases hvisb : vis.contains id with
      | true =>
        have hvis : id ∈ vis := List.elem_iff.1 hvisb
        simp only [visitF, hvisb, if_true, Option.some.injEq, Prod.mk.injEq] at hrun
        obtain ⟨hv, hr⟩ := hrun
        subst hv; subst hr
        exact ⟨hinv, hnd, hgood, hnoback, hpres, ⟨[], by simp⟩, hvis⟩
      | false =>
        have hvis : id ∉ vis := fun hm => by
          have ht : vis.contains id = true := List.elem_iff.2 hm
          rw [ht] at hvisb
          exact Bool.noConfusion hvisb
        cases ho : lookupOpt opts id with
        | none => simp [visitF, hvis, ho] at hrun
        | some o =>
          cases hg : goDeps (fun d st => visitF opts f d st) (depKeys o)
              (id :: vis, res) with
          | none => simp [visitF, hvis, ho, hg] at hrun
          | some st₂ =>
            obtain ⟨vis₂, res₂⟩ := st₂
            simp [visitF, hvis, ho, hg] at hrun
            obtain ⟨hv', hr'⟩ := hrun
            subst hv'
            have hidres : id ∉ res := fun hm => hvis (hressub id hm)
            have hdepsid : depKeysOf opts id = depKeys o := depKeysOf_eq_depKeys ho
            obtain ⟨hinv₂, hnd₂, hgood₂, hnoback₂, hpres₂, ⟨r', happ⟩, hdvis⟩ :=
              ihB (depKeys o) (id :: P) (id :: vis) res vis₂ res₂ hg
                (by
                  intro x
                  rw [List.mem_cons, List.mem_cons, hinv x]
                  tauto)
                hnd hgood
                (by
                  intro a ha p hp
                  rcases List.mem_cons.1 hp with hp | hp
                  · subst hp
                    intro hc
                    exact hidres ((hgood a ha p hc).1)
                  · exact hnoback a ha p hp)
                (by
                  intro p hp
                  rcases List.mem_cons.1 hp with hp | hp
                  · subst hp; exact hidres
                  · exact hpres p hp)
                (by
                  intro p hp d hd
                  have hedge : depAdj opts id d := by
                    rw [depAdj, hdepsid]; exact hd
                  rcases List.mem_cons.1 hp with hp | hp
                  · subst hp; exact Relation.TransGen.single hedge
                  · exact (hreach p hp).tail hedge)
            have hidres₂ : id ∉ res₂ := hpres₂ id (List.mem_cons_self _ _)
            subst hr'
            refine ⟨?_, ?_, ?_, ?_, ?_, ?_, ?_⟩
            · intro x
              rw [hinv₂ x]
              simp only [List.mem_cons, List.mem_append, List.mem_singleton]
              tauto
            · rw [List.nodup_append]
              refine ⟨hnd₂, List.nodup_singleton id, ?_⟩
              intro a ha hb
              rw [List.mem_singleton] at hb
              subst hb
              exact hidres₂ ha
            · intro a ha b hb
              rcases List.mem_append.1 ha with ha' | ha'
              · obtain ⟨hbres, hidx⟩ := hgood₂ a ha' b hb
                refine ⟨List.mem_append_left _ hbres, ?_⟩
                rw [List.indexOf_append_of_mem hbres, List.indexOf_append_of_mem ha']
                exact hidx
              · rw [List.mem_singleton] at ha'
                have hb2 : b ∈ depKeys o := by
                  rw [← hdepsid, ← ha']
                  exact hb
                have hedge : depAdj opts id b := by
                  rw [depAdj, hdepsid]
                  exact hb2
                have hbvis : b ∈ vis₂ := hdvis b hb2
                have hbcase := (hinv₂ b).1 hbvis
                have hbres : b ∈ res₂ := by
                  rcases hbcase with hbres | hbP
                  · exact hbres
                  · exfalso
                    rcases List.mem_cons.1 hbP with hbid | hbP2
                    · exact hA id (Relation.TransGen.single (hbid ▸ hedge))
                    · exact hA b ((hreach b hbP2).tail hedge)
                rw [ha']
                refine ⟨List.mem_append_left _ hbres, ?_⟩
                rw [List.indexOf_append_of_mem hbres,
                  indexOf_append_notMem _ hidres₂]
                have hlt : res₂.indexOf b < res₂.length := List.indexOf_lt_length.2 hbres
                have hone : List.indexOf id [id] = 0 := by simp [List.indexOf_cons]
                omega
            · intro a ha p hp
              rcases List.mem_append.1 ha with ha' | ha'
              · exact hnoback₂ a ha' p (List.mem_cons_of_mem _ hp)
              · rw [List.mem_singleton] at ha'
                rw [ha']
                intro hc
                exact hA p ((hreach p hp).tail hc)
            · intro p hp hmem
              rcases List.mem_append.1 hmem with hm | hm
              · exact hpres₂ p (List.mem_cons_of_mem _ hp) hm
              · rw [List.mem_singleton] at hm
                subst hm
                exact hA p (hreach p hp)
            · exact ⟨r' ++ [id], by rw [happ, List.append_assoc]⟩
            · exact (hinv₂ id).2 (Or.inr (List.mem_cons_self _ _))
    refine ⟨hA1, ?_⟩
    intro ds
    induction ds with
    | nil =>
      intro P vis res vis' res' hrun hinv hnd hgood hnoback hpres _
      simp only [goDeps, Option.some.injEq, Prod.mk.injEq] at hrun
      obtain ⟨hv, hr⟩ := hrun
      subst hv; subst hr
      exact ⟨hinv, hnd, hgood, hnoback, hpres, ⟨[], by simp⟩, by simp⟩
    | cons d ds ihds =>
      intro P vis res vis' res' hrun hinv hnd hgood hnoback hpres hreach
      cases hv : visitF opts (f + 1) d (vis, res) with
      | none => rw [goDeps, hv] at hrun; exact absurd hrun (by simp)
      | some st₁ =>
        obtain ⟨vis₁, res₁⟩ := st₁
        rw [goDeps] at hrun
        simp only [hv] at hrun
        obtain ⟨hinv₁, hnd₁, hgood₁, hnoback₁, hpres₁, ⟨r₁, happ₁⟩, hdv⟩ :=
          hA1 d P vis res vis₁ res₁ hv hinv hnd hgood hnoback hpres
            (fun p hp => hreach p hp d (List.mem_cons_self _ _))
        obtain ⟨hinv', hnd', hgood', hnoback', hpres', ⟨r₂, happ₂⟩, hds'⟩ :=
          ihds P vis₁ res₁ vis' res' hrun hinv₁ hnd₁ hgood₁ hnoback₁ hpres₁
            (fun p hp d' hd' => hreach p hp d' (List.mem_cons_of_mem _ hd'))
        refine ⟨hinv', hnd', hgood', hnoback', hpres', ?_, ?_⟩
        · exact ⟨r₁ ++ r₂, by rw [happ₂, happ₁, List.append_assoc]⟩
        · intro d' hd'
          rcases List.mem_cons.1 hd' with hd' | hd'
          · subst hd'
            rcases (hinv₁ d').1 hdv with hm | hm
            · exact (hinv' d').2 (Or.inl (happ₂ ▸ List.mem_append_left _ hm))
            · exact (hinv' d').2 (Or.inr hm)
          · exact hds' d' hd'

theorem topologicalSort_wf (opts : OptionSet) (hC : Closed opts) (arr : List String)
    (harr : ∀ x ∈ arr, x ∈ keys opts) :
    ∃ R, topologicalSort opts arr = some R ∧ R.Nodup ∧
      (∀ x ∈ R, x ∈ keys opts) ∧ (∀ x ∈ arr, x ∈ R) := by
  have hfuel : ((keys opts).filter (fun k => ! ([] : List String).contains k)).length
      < opts.length + 1 := by
    have h1 := List.length_filter_le (fun k => ! ([] : List String).contains k) (keys opts)
    have h2 : (keys opts).length = opts.length := List.length_map _ _
    omega
  obtain ⟨vis', res₂, hgo, hiff, hfresh, hnd, hds⟩ :=
    (visit_basic opts hC (opts.length + 1)).2 arr [] [] harr hfuel (by simp)
  refine ⟨res₂, ?_, hnd, fun x hx => (hfresh x hx).2, ?_⟩
  · simp [topologicalSort, hgo]
  · intro x hx
    rcases (hiff x).1 (hds x hx) with h | h
    · simp at h
    · exact h

theorem topologicalSort_order (opts : OptionSet) (hAc : Acyclic opts)
    (arr : List String) {R : List String}
    (hR : topologicalSort opts arr = some R) : emitsDepsFirst opts R := by
  unfold topologicalSort at hR
  rcases Option.map_eq_some'.1 hR with ⟨st, hst, hsnd⟩
  obtain ⟨vis', res'⟩ := st
  simp only at hsnd
  rw [hsnd] at hst
  have h := ((visit_order opts hAc (opts.length + 1)).2 arr [] [] [] vis' R hst
    (by simp) List.nodup_nil
    (fun a ha => absurd ha (List.not_mem_nil a))
    (fun a ha => absurd ha (List.not_mem_nil a))
    (fun p hp => absurd hp (List.not_mem_nil p))
    (fun p hp => absurd hp (List.not_mem_nil p)))
  exact h.2.2.1

theorem linkedOptions_subset_keys {opts : OptionSet} (hC : Closed opts) :
    ∀ x ∈ linkedOptions opts, x ∈ keys opts := by
  intro x hx
  rcases List.mem_flatMap.1 hx with ⟨p, hp, hxp⟩
  revert hxp
  cases hdep : p.2.dependencies with
  | none => intro hxp; simp at hxp
  | some deps =>
    intro hxp
    rcases List.mem_cons.1 hxp with h | h
    · exact h ▸ List.mem_map_of_mem Prod.fst hp
    · refine hC p hp x ?_
      rw [depKeys, hdep]
      exact h

theorem mem_linkedOptions_self {opts : OptionSet} {a : String} {o : Opt}
    {deps : List (String × List JSVal)} (ho : lookupOpt opts a = some o)
    (hdep : o.dependencies = some deps) : a ∈ linkedOptions opts := by
  rcases lookupOpt_entry ho with ⟨p, hp, hfst, hsnd⟩
  refine List.mem_flatMap.2 ⟨p, hp, ?_⟩
  rw [hsnd, hdep]
  exact hfst ▸ List.mem_cons_self _ _

theorem mem_linkedOptions_dep {opts : OptionSet} {a b : String} {o : Opt}
    (ho : lookupOpt opts a = some o) (hb : b ∈ depKeys o) :
    b ∈ linkedOptions opts := by
  rcases lookupOpt_entry ho with ⟨p, hp, _, hsnd⟩
  cases hdep : o.dependencies with
  | none => rw [depKeys, hdep] at hb; simp at hb
  | some deps =>
    refine List.mem_flatMap.2 ⟨p, hp, ?_⟩
    rw [hsnd, hdep]
    rw [depKeys, hdep] at hb
    exact List.mem_cons_of_mem _ hb

theorem idOrder_parts {opts : OptionSet} {l : List String}
    (hl : idOrder opts = some l) :
    ∃ R, topologicalSort opts (groupDropdowns opts (linkedOptions opts)) = some R ∧
      l = jsDedupe (R ++ ckSortedKeys opts) := by
  unfold idOrder at hl
  rcases Option.map_eq_some'.1 hl with ⟨R, hR, hl2⟩
  exact ⟨R, hR, hl2.symm⟩

theorem idOrder_nodup {opts : OptionSet} {l : List String}
    (hl : idOrder opts = some l) : l.Nodup := by
  rcases idOrder_parts hl with ⟨R, _, hl2⟩
  rw [hl2]
  exact jsDedupe_nodup _

theorem idOrder_wf (opts : OptionSet) (hC : Closed opts) :
    ∃ l, idOrder opts = some l ∧ l.Nodup ∧ (∀ x, x ∈ l ↔ x ∈ keys opts) := by
  have harr : ∀ x ∈ groupDropdowns opts (linkedOptions opts), x ∈ keys opts := by
    intro x hx
    exact linkedOptions_subset_keys hC x ((mem_jsSortShort_flag _ _ x).1 hx)
  obtain ⟨R, hR, hnd, hRk, _⟩ := topologicalSort_wf opts hC _ harr
  refine ⟨jsDedupe (R ++ ckSortedKeys opts), ?_, jsDedupe_nodup _, ?_⟩
  · simp [idOrder, hR]
  · intro x
    rw [jsDedupe_mem, List.mem_append, ckSortedKeys, mem_jsSortShort_flag]
    constructor
    · rintro (h | h)
      · exact hRk x h
      · exact h
    · exact Or.inr

/-! Acyclicity of the witness option set. -/

theorem depAdj_optsW_cases (a b : String) (h : depAdj optsW a b) :
    a = "A" ∧ b = "B" := by
  have h' : b ∈ depKeysOf optsW a := h
  simp only [depKeysOf] at h'
  cases hlo : lookupOpt optsW a with
  | none => rw [hlo] at h'; exact absurd h' (List.not_mem_nil b)
  | some o =>
    rw [hlo] at h'
    rcases lookupOpt_entry hlo with ⟨p, hp, hfst, hsnd⟩
    have hp' : p = ("B", ⟨OptType.CHECKBOX, [], none⟩) ∨
        p = ("A", ⟨OptType.CHECKBOX, [], some [("B", [JSVal.bool true])]⟩) ∨
        p = ("C", ⟨OptType.DROPDOWN, ["x", "y"], none⟩) ∨
        p = ("T", ⟨OptType.TEXT, [], none⟩) := by
      simpa [optsW] using hp
    rcases hp' with hp' | hp' | hp' | hp' <;> subst hp' <;> rw [← hsnd] at h'
    · simp [depKeys] at h'
    · simp only [depKeys] at h'
      simp at h'
      exact ⟨hfst.symm, h'⟩
    · simp [depKeys] at h'
    · simp [depKeys] at h'

theorem acyclic_optsW : Acyclic optsW := by
  intro x hx
  have key : ∀ c d, Relation.TransGen (depAdj optsW) c d → c = "A" ∧ d = "B" := by
    intro c d h
    induction h with
    | single h1 => exact depAdj_optsW_cases _ _ h1
    | tail h1 h2 ih =>
      have hmid := (depAdj_optsW_cases _ _ h2).1
      have hC2 := (depAdj_optsW_cases _ _ h2).2
      rw [ih.2] at hmid
      exact absurd hmid (by decide)
  rcases key x x hx with ⟨h1, h2⟩
  rw [h1] at h2
  exact absurd h2 (by decide)

/-- C1: for every OptionSet whose dependency relation is acyclic and whose
dependency references all name existing ids, whenever option A declares a
dependency on option B, the resolver succeeds and the position of A in the
final orderedIds sequence is strictly after the position of B. -/
theorem claim_C1_topological_validity (opts : OptionSet) (A B : String)
    (hC : Closed opts) (hAc : Acyclic opts) (hAB : B ∈ depKeysOf opts A) :
    ∃ l, idOrder opts = some l ∧ B ∈ l ∧ A ∈ l ∧ l.indexOf B < l.indexOf A := by
  have hABkeep := hAB
  simp only [depKeysOf] at hABkeep
  cases hlo : lookupOpt opts A with
  | none => rw [hlo] at hABkeep; exact absurd hABkeep (List.not_mem_nil B)
  | some o =>
    rw [hlo] at hABkeep
    cases hdep : o.dependencies with
    | none =>
      simp only [depKeys, hdep] at hABkeep
      exact absurd hABkeep (by simp)
    | some deps =>
      have hAlinked : A ∈ linkedOptions opts := mem_linkedOptions_self hlo hdep
      have hBlinked : B ∈ linkedOptions opts := mem_linkedOptions_dep hlo hABkeep
      have hA_arr : A ∈ groupDropdowns opts (linkedOptions opts) :=
        (mem_jsSortShort_flag _ _ A).2 hAlinked
      have harr : ∀ x ∈ groupDropdowns opts (linkedOptions opts), x ∈ keys opts := by
        intro x hx
        exact linkedOptions_subset_keys hC x ((mem_jsSortShort_flag _ _ x).1 hx)
      obtain ⟨R, hR, hnd, hRk, harrR⟩ := topologicalSort_wf opts hC _ harr
      have hgood : emitsDepsFirst opts R := topologicalSort_order opts hAc _ hR
      have hAR : A ∈ R := harrR A hA_arr
      obtain ⟨hBR, hidx⟩ := hgood A hAR B hAB
      obtain ⟨T, hT⟩ := jsDedupe_append_of_nodup R hnd (ckSortedKeys opts)
      refine ⟨jsDedupe (R ++ ckSortedKeys opts), by simp [idOrder, hR], ?_, ?_, ?_⟩
      · rw [hT]; exact List.mem_append_left _ hBR
      · rw [hT]; exact List.mem_append_left _ hAR
      · rw [hT, List.indexOf_append_of_mem hBR, List.indexOf_append_of_mem hAR]
        exact hidx

/-- Witness for C1 at a concrete option set: checkbox A depends on
checkbox B, the set is closed and acyclic, and B precedes A in the
resolved order. -/
theorem claim_C1_witness :
    Closed optsW ∧ ("B" : String) ∈ depKeysOf optsW "A" ∧
      (∃ l, idOrder optsW = some l ∧ "B" ∈ l ∧ "A" ∈ l ∧
        l.indexOf "B" < l.indexOf "A") :=
  ⟨by decide, by decide,
    claim_C1_topological_validity optsW "A" "B" (by decide) acyclic_optsW (by decide)⟩

/-- C2 counterexample: the grouping step is not a stable partition. On the
linked collection [d1, x, d2, x] of the concrete option set optsD, the code
(modeled after the V8 sort the extension runs under) produces
[d2, d1, x, x], while a stable dropdowns-first partition produces
[d1, d2, x, x]: the relative order of the dropdown ids d1 and d2 is
reversed. -/
theorem claim_C2_counterexample :
    groupDropdowns optsD (linkedOptions optsD) = ["d2", "d1", "x", "x"] ∧
      specStableDropdownPartition optsD (linkedOptions optsD) = ["d1", "d2", "x", "x"] ∧
      groupDropdowns optsD (linkedOptions optsD) ≠
        specStableDropdownPartition optsD (linkedOptions optsD) := by
  refine ⟨by decide, by decide, by decide⟩

/-- C2 amended: the grouping step places every id whose option type is
DROPDOWN before every other id and preserves the relative order of the
non-dropdown ids, but reverses the relative order of the dropdown ids
(the sort comparator is inconsistent, so no stability guarantee applies;
the result is characterized exactly). -/
theorem claim_C2_group_dropdowns_characterization (opts : OptionSet) (l : List String) :
    groupDropdowns opts l =
      (l.filter (isDropdownB opts)).reverse ++
        l.filter (fun x => ! isDropdownB opts x) :=
  jsSortShort_flag (isDropdownB opts) l

/-- C3: for a closed OptionSet with distinct keys, the resolver succeeds
and orderedIds is a permutation of the key set. -/
theorem claim_C3_completeness (opts : OptionSet) (hC : Closed opts)
    (hN : (keys opts).Nodup) :
    ∃ l, idOrder opts = some l ∧ l.Perm (keys opts) := by
  obtain ⟨l, hl, hnd, hmem⟩ := idOrder_wf opts hC
  exact ⟨l, hl, (List.perm_ext_iff_of_nodup hnd hN).2 hmem⟩

/-- Witness for C3 at a concrete option set. -/
theorem claim_C3_witness :
    Closed optsW ∧ (keys optsW).Nodup ∧
      ∃ l, idOrder optsW = some l ∧ l.Perm (keys optsW) :=
  ⟨by decide, by decide, claim_C3_completeness optsW (by decide) (by decide)⟩

/-- C8: the topological pass terminates (the fueled model never exhausts
its fuel) on every input list over a closed OptionSet, with no acyclicity
assumption, and its result contains each id at most once. -/
theorem claim_C8_termination (opts : OptionSet) (arr : List String)
    (hC : Closed opts) (harr : ∀ x ∈ arr, x ∈ keys opts) :
    ∃ R, topologicalSort opts arr = some R ∧ R.Nodup := by
  obtain ⟨R, hR, hnd, _, _⟩ := topologicalSort_wf opts hC arr harr
  exact ⟨R, hR, hnd⟩

/-- Witness for C8 at a concrete option set whose dependency relation is
cyclic (X and Y depend on each other). -/
theorem claim_C8_witness :
    Closed optsC ∧ (∀ x ∈ ["X", "Y", "X"], x ∈ keys optsC) ∧
      ∃ R, topologicalSort optsC ["X", "Y", "X"] = some R ∧ R.Nodup :=
  ⟨by decide, by decide, claim_C8_termination optsC ["X", "Y", "X"] (by decide) (by decide)⟩

/-! Segmentation of the resolved order into presentation units. -/

theorem dropWhile_head_not (p : α → Bool) :
    ∀ (l : List α) (x : α) (rest : List α), l.dropWhile p = x :: rest → p x = false := by
  intro l
  induction l with
  | nil => intro x rest h; exact absurd h (by simp)
  | cons a l ih =>
    intro x rest h
    rw [List.dropWhile_cons] at h
    by_cases hp : p a = true
    · rw [if_pos hp] at h
      exact ih x rest h
    · rw [if_neg hp] at h
      obtain ⟨ha, _⟩ := List.cons.injEq a l x rest ▸ h
      rw [← ha]
      exact Bool.eq_false_iff.2 hp

theorem isCheckboxB_true_of {opts : OptionSet} {x : String} {o : Opt}
    (ho : lookupOpt opts x = some o) (hty : o.type = OptType.CHECKBOX) :
    isCheckboxB opts x = true := by
  simp [isCheckboxB, ho, hty]

theorem isCheckboxB_false_of {opts : OptionSet} {x : String} {o : Opt}
    (ho : lookupOpt opts x = some o) (hty : o.type ≠ OptType.CHECKBOX) :
    isCheckboxB opts x = false := by
  simp [isCheckboxB, ho, hty]

theorem segmentUnits_spec (opts : OptionSet) :
    ∀ l : List String, (∀ x ∈ l, (lookupOpt opts x).isSome = true) →
      ∃ us, segmentUnits opts l = some us ∧
        us.flatMap unitIds = l ∧
        (∀ u ∈ us, unitWellFormed opts u) ∧
        List.Chain' (fun a b => ¬ (isCluster a ∧ isCluster b)) us := by
  suffices h : ∀ (n : Nat) (l : List String), l.length ≤ n →
      (∀ x ∈ l, (lookupOpt opts x).isSome = true) →
      ∃ us, segmentUnits opts l = some us ∧
        us.flatMap unitIds = l ∧
        (∀ u ∈ us, unitWellFormed opts u) ∧
        List.Chain' (fun a b => ¬ (isCluster a ∧ isCluster b)) us by
    intro l hl
    exact h l.length l (le_refl _) hl
  intro n
  induction n with
  | zero =>
    intro l hlen _
    have hnil : l = [] := List.eq_nil_of_length_eq_zero (by omega)
    subst hnil
    exact ⟨[], by simp [segmentUnits], by simp, by simp, by simp⟩
  | succ n ihn =>
    intro l hlen hl
    cases l with
    | nil => exact ⟨[], by simp [segmentUnits], by simp, by simp, by simp⟩
    | cons id rest =>
      obtain ⟨o, ho⟩ := Option.isSome_iff_exists.1 (hl id (List.mem_cons_self _ _))
      rw [List.length_cons] at hlen
      by_cases hty : o.type = OptType.CHECKBOX
      · have hrest' : (rest.dropWhile (isCheckboxB opts)).length ≤ n := by
          have := length_dropWhile_le (isCheckboxB opts) rest
          omega
        have hl' : ∀ x ∈ rest.dropWhile (isCheckboxB opts),
            (lookupOpt opts x).isSome = true := fun x hx =>
          hl x (List.mem_cons_of_mem _ ((List.dropWhile_sublist _).subset hx))
        obtain ⟨us, hus, hjoin, hwf, hchain⟩ := ihn _ hrest' hl'
        refine ⟨PresUnit.cluster (id :: rest.takeWhile (isCheckboxB opts)) :: us,
          ?_, ?_, ?_, ?_⟩
        · simp [segmentUnits, ho, hty, hus]
        · rw [List.flatMap_cons, hjoin]
          simp only [unitIds, List.cons_append]
          rw [List.takeWhile_append_dropWhile]
        · intro u hu
          rcases List.mem_cons.1 hu with hu | hu
          · subst hu
            refine ⟨by simp, ?_⟩
            intro x hx
            rcases List.mem_cons.1 hx with hx | hx
            · subst hx
              exact isCheckboxB_true_of ho hty
            · exact List.mem_takeWhile_imp hx
          · exact hwf u hu
        · rw [List.chain'_cons']
          refine ⟨?_, hchain⟩
          intro b hb
          cases hdw : rest.dropWhile (isCheckboxB opts) with
          | nil =>
            rw [hdw] at hus
            have : us = [] := by
              simp [segmentUnits] at hus
              exact hus
            rw [this] at hb
            simp at hb
          | cons y rest₂ =>
            have hyfalse : isCheckboxB opts y = false :=
              dropWhile_head_not _ rest y rest₂ hdw
            obtain ⟨o', ho'⟩ := Option.isSome_iff_exists.1 (hl' y (hdw ▸ List.mem_cons_self _ _))
            have hty' : o'.type ≠ OptType.CHECKBOX := by
              intro hc
              rw [isCheckboxB_true_of ho' hc] at hyfalse
              exact Bool.noConfusion hyfalse
            rw [hdw] at hus
            have hstep : ∃ us₂, us = PresUnit.single y :: us₂ := by
              cases hty2 : o'.type with
              | CHECKBOX => exact absurd hty2 hty'
              | DROPDOWN =>
                simp [segmentUnits, ho', hty2] at hus
                rcases hus with ⟨us₂, _, husx⟩
                exact ⟨us₂, husx.symm⟩
              | TEXT =>
                simp [segmentUnits, ho', hty2] at hus
                rcases hus with ⟨us₂, _, husx⟩
                exact ⟨us₂, husx.symm⟩
            obtain ⟨us₂, hus₂⟩ := hstep
            rw [hus₂] at hb
            simp only [List.head?_cons, Option.mem_def, Option.some.injEq] at hb
            subst hb
            intro hcc
            exact hcc.2
      · have hrest : rest.length ≤ n := by omega
        have hl' : ∀ x ∈ rest, (lookupOpt opts x).isSome = true := fun x hx =>
          hl x (List.mem_cons_of_mem _ hx)
        obtain ⟨us, hus, hjoin, hwf, hchain⟩ := ihn rest hrest hl'
        refine ⟨PresUnit.single id :: us, ?_, ?_, ?_, ?_⟩
        · cases hty2 : o.type with
          | CHECKBOX => exact absurd hty2 hty
          | DROPDOWN => simp [segmentUnits, ho, hty2, hus]
          | TEXT => simp [segmentUnits, ho, hty2, hus]
        · rw [List.flatMap_cons, hjoin]
          simp [unitIds]
        · intro u hu
          rcases List.mem_cons.1 hu with hu | hu
          · subst hu
            exact isCheckboxB_false_of ho hty
          · exact hwf u hu
        · rw [List.chain'_cons']
          refine ⟨?_, hchain⟩
          intro b _
          intro hcc
          exact hcc.1

/-- C7: the segmentation of orderedIds is an exact order-preserving
partition: concatenating the units reproduces orderedIds, every cluster is
non-empty and holds only CHECKBOX ids, every singleton holds a
non-checkbox id, and no two adjacent units are both clusters (so clusters
are maximal runs). -/
theorem claim_C7_partition (opts : OptionSet) (l : List String)
    (hC : Closed opts) (hl : idOrder opts = some l) :
    ∃ us, segmentUnits opts l = some us ∧
      us.flatMap unitIds = l ∧
      (∀ u ∈ us, unitWellFormed opts u) ∧
      List.Chain' (fun a b => ¬ (isCluster a ∧ isCluster b)) us := by
  obtain ⟨l', hl', _, hmem⟩ := idOrder_wf opts hC
  rw [hl] at hl'
  obtain rfl : l = l' := by injection hl'
  refine segmentUnits_spec opts l ?_
  intro x hx
  obtain ⟨o, ho⟩ := lookupOpt_isSome_of_mem_keys ((hmem x).1 hx)
  simp [ho]

/-- Witness for C7 at a concrete option set: the resolved order
[B, A, C, T] splits into the cluster [B, A], then singletons C and T. -/
theorem claim_C7_witness :
    Closed optsW ∧ idOrder optsW = some ["B", "A", "C", "T"] ∧
      ∃ us, segmentUnits optsW ["B", "A", "C", "T"] = some us ∧
        us.flatMap unitIds = ["B", "A", "C", "T"] ∧
        (∀ u ∈ us, unitWellFormed optsW u) ∧
        List.Chain' (fun a b => ¬ (isCluster a ∧ isCluster b)) us :=
  ⟨by decide, by decide,
    claim_C7_partition optsW ["B", "A", "C", "T"] (by decide) (by decide)⟩

/-! Dependency evaluator claims. -/

/-- C4 counterexample: in the concrete option set optsU, option O carries a
dependency pair on id Z with acceptable-value set containing the boolean
false; Z has no entry in the confirmed values and is not among the
tentative selections, yet O is evaluated as satisfied and stays in the
visible subset, because the missing tentative lookup coerces to the
boolean false and false is in the acceptable set. The claim as stated
says O must be excluded for every acceptable-value set. -/
theorem claim_C4_counterexample :
    getVisibleOptions optsU [] [] ["O"] = ["O"] ∧
      jsGet ([] : List (String × JSVal)) "Z" = none ∧
      (([] : List String).contains "Z") = false := by
  refine ⟨by decide, by decide, by decide⟩

/-- C4 amended: a dependency pair on an id with no confirmed entry and
outside the tentative selection makes the option unsatisfied and excluded
from the visible subset, provided the acceptable-value set does not
contain the boolean false; when it does contain false, the coerced
tentative lookup satisfies the pair. -/
theorem claim_C4_unreached_dependency (opts : OptionSet)
    (confirmed : List (String × JSVal)) (selected : List String)
    (cluster : List String) (id depId : String) (o : Opt)
    (deps : List (String × List JSVal)) (depVals : List JSVal)
    (ho : lookupOpt opts id = some o)
    (hdep : o.dependencies = some deps)
    (hpair : (depId, depVals) ∈ deps)
    (hconf : jsGet confirmed depId = none)
    (hsel : selected.contains depId = false)
    (hfalse : JSVal.bool false ∉ depVals) :
    id ∉ getVisibleOptions opts confirmed selected cluster := by
  intro hmem
  have hfilter := (List.mem_filter.1 hmem).2
  rw [ho] at hfilter
  simp only [isSatisfiedOpt, hdep] at hfilter
  have hall := List.all_eq_true.1 hfilter (depId, depVals) hpair
  simp only [depPairSat, hconf, hsel] at hall
  rw [Bool.false_or] at hall
  exact hfalse (List.elem_iff.1 hall)

/-- Witness for C4 amended: option O of optsU also carries no satisfied
pair when the acceptable set is [true], so with a string acceptable set
replaced by one without false the option is excluded; here we use a
variant option set inline through the hypotheses of the theorem at
concrete values. -/
theorem claim_C4_witness :
    lookupOpt optsW "A" = some ⟨OptType.CHECKBOX, [], some [("B", [JSVal.bool true])]⟩ ∧
      ("A" : String) ∉ getVisibleOptions optsW [] [] ["A"] :=
  ⟨by decide,
    claim_C4_unreached_dependency optsW [] [] ["A"] "A" "B"
      ⟨OptType.CHECKBOX, [], some [("B", [JSVal.bool true])]⟩
      [("B", [JSVal.bool true])] [JSVal.bool true]
      (by decide) rfl (by decide) (by decide) (by decide) (by decide)⟩

/-! Interactive collector lemmas. -/

theorem collectLoop_frame (opts : OptionSet) :
    ∀ (resps : List Resp) (vals : List (String × JSVal)) (L : List String)
      (final : List (String × JSVal)),
      collectLoop opts resps vals L = some final →
      ∀ x, x ∉ L → jsGet final x = jsGet vals x := by
  intro resps
  induction resps with
  | nil =>
    intro vals L final hrun x _
    cases L with
    | nil =>
      simp only [collectLoop, Option.some.injEq] at hrun
      rw [hrun]
    | cons id rest => simp [collectLoop] at hrun
  | cons resp resps ih =>
    intro vals L final hrun x hx
    cases L with
    | nil =>
      simp only [collectLoop, Option.some.injEq] at hrun
      rw [hrun]
    | cons id rest =>
      have hxid : x ≠ id := fun h => hx (h ▸ List.mem_cons_self _ _)
      have hxrest : x ∉ rest := fun h => hx (List.mem_cons_of_mem _ h)
      cases ho : lookupOpt opts id with
      | none => simp [collectLoop, ho] at hrun
      | some o =>
        cases hty : o.type with
        | CHECKBOX =>
          cases resp with
          | text r => simp [collectLoop, ho, hty] at hrun
          | pick r => simp [collectLoop, ho, hty] at hrun
          | clusterSel r =>
            cases r with
            | none => simp [collectLoop, ho, hty] at hrun
            | some sel =>
              simp only [collectLoop, ho, hty] at hrun
              split at hrun
              · next hsub =>
                have hxrest' : x ∉ rest.dropWhile (isCheckboxB opts) := fun h =>
                  hxrest ((List.dropWhile_sublist _).subset h)
                rw [ih _ _ _ hrun x hxrest']
                have hxcluster : x ∉ id :: rest.takeWhile (isCheckboxB opts) := by
                  intro h
                  rcases List.mem_cons.1 h with h | h
                  · exact hxid h
                  · exact hxrest ((List.takeWhile_sublist _).subset h)
                have hxsel : x ∉ sel := by
                  intro h
                  have := List.all_eq_true.1 hsub x h
                  exact hxcluster (List.elem_iff.1 this)
                rw [jsGet_foldl_const_notMem _ _ _ _ hxsel,
                  jsGet_foldl_const_notMem _ _ _ _ hxcluster]
              · exact absurd hrun (by simp)
        | DROPDOWN =>
          cases resp with
          | text r => simp [collectLoop, ho, hty] at hrun
          | clusterSel r => simp [collectLoop, ho, hty] at hrun
          | pick r =>
            cases r with
            | none => simp [collectLoop, ho, hty] at hrun
            | some s =>
              simp only [collectLoop, ho, hty] at hrun
              split at hrun
              · next hcs =>
                rw [ih _ _ _ hrun x hxrest, jsGet_jsSet_ne _ _ _ _ hxid]
                cases hch : o.choices.head? with
                | none => simp [hch]
                | some c => simp [hch, jsGet_jsSet_ne _ _ _ _ hxid]
              · exact absurd hrun (by simp)
        | TEXT =>
          cases resp with
          | pick r => simp [collectLoop, ho, hty] at hrun
          | clusterSel r => simp [collectLoop, ho, hty] at hrun
          | text r =>
            cases r with
            | none => simp [collectLoop, ho, hty] at hrun
            | some s =>
              simp only [collectLoop, ho, hty] at hrun
              split at hrun
              · next hs => exact absurd hrun (by simp)
              · next hs =>
                rw [ih _ _ _ hrun x hxrest, jsGet_jsSet_ne _ _ _ _ hxid,
                  jsGet_jsSet_ne _ _ _ _ hxid]

/-- C5: the source guard `if (!selectedValue)` on the text-input result is
truthy for the empty string as well as for a dismissal, so a submitted
empty string ends the whole run with no result — although the prompt
placeholder promises that an empty submission uses the default value, and
the claim says the empty string should be confirmed and the collector
should advance. A submitted non-empty string is confirmed and the
collector advances. -/
theorem claim_C5_empty_text_cancels :
    collectLoop optsW [Resp.text (some "")] [] ["T"] = none ∧
      collectLoop optsW [Resp.text (some "hi")] [] ["T"] =
        some [("T", JSVal.str "hi")] := by
  refine ⟨by decide, by decide⟩

/-- C6: a dismissal at the active suspension point (text input, dropdown
pick, or cluster accept) with at least one unit remaining ends the run
with no result, from every reachable loop state (any confirmed map so far
and any remaining suffix of units), and in particular the job submission
never receives user values for the whole run. -/
theorem claim_C6_cancellation (opts : OptionSet) (id : String) (rest : List String)
    (r : Resp) (resps : List Resp) (confirmOk : Bool)
    (hr : isDismiss r = true) :
    (∀ vals, collectLoop opts (r :: resps) vals (id :: rest) = none) ∧
      submittedJobValues opts (id :: rest) (r :: resps) confirmOk = none := by
  have hloop : ∀ vals, collectLoop opts (r :: resps) vals (id :: rest) = none := by
    intro vals
    cases ho : lookupOpt opts id with
    | none => simp [collectLoop, ho]
    | some o =>
      cases r with
      | text ro =>
        cases ro with
        | none => cases hty : o.type <;> simp [collectLoop, ho, hty]
        | some s => simp [isDismiss] at hr
      | pick ro =>
        cases ro with
        | none => cases hty : o.type <;> simp [collectLoop, ho, hty]
        | some s => simp [isDismiss] at hr
      | clusterSel ro =>
        cases ro with
        | none => cases hty : o.type <;> simp [collectLoop, ho, hty]
        | some sel => simp [isDismiss] at hr
  exact ⟨hloop, by simp [submittedJobValues, hloop []]⟩

/-- Witness for C6: dismissing the text prompt of the last unit of the
concrete option set yields no submission. -/
theorem claim_C6_witness :
    isDismiss (Resp.text none) = true ∧
      (∀ vals, collectLoop optsW [Resp.text none] vals ["T"] = none) ∧
      submittedJobValues optsW ["T"] [Resp.text none] true = none := by
  have h := claim_C6_cancellation optsW "T" [] (Resp.text none) [] true (by decide)
  exact ⟨by decide, h.1, h.2⟩

/-- C9: once an id of an already-processed prefix of orderedIds has a
confirmed value, running the collection loop over any remaining suffix of
orderedIds never revises that value: the final map still holds it. -/
theorem claim_C9_no_revision (opts : OptionSet) (l l₁ l₂ : List String)
    (x : String) (v : JSVal) (vals final : List (String × JSVal))
    (resps : List Resp)
    (hl : idOrder opts = some l) (hsplit : l = l₁ ++ l₂) (hx : x ∈ l₁)
    (hv : jsGet vals x = some v)
    (hrun : collectLoop opts resps vals l₂ = some final) :
    jsGet final x = some v := by
  have hnd : l.Nodup := idOrder_nodup hl
  rw [hsplit, List.nodup_append] at hnd
  have hxl₂ : x ∉ l₂ := fun hc => hnd.2.2 hx hc
  rw [collectLoop_frame opts resps vals l₂ final hrun x hxl₂]
  exact hv

/-- Witness for C9: after the cluster unit of the concrete option set
confirmed B as false, finishing the run over the remaining units C and T
leaves the value of B untouched. -/
theorem claim_C9_witness :
    idOrder optsW = some ["B", "A", "C", "T"] ∧
      jsGet [("B", JSVal.bool false), ("A", JSVal.bool true)] "B" =
        some (JSVal.bool false) ∧
      collectLoop optsW [Resp.pick (some "y"), Resp.text (some "hi")]
        [("B", JSVal.bool false), ("A", JSVal.bool true)] ["C", "T"] =
        some [("B", JSVal.bool false), ("A", JSVal.bool true),
          ("C", JSVal.str "y"), ("T", JSVal.str "hi")] ∧
      jsGet [("B", JSVal.bool false), ("A", JSVal.bool true),
        ("C", JSVal.str "y"), ("T", JSVal.str "hi")] "B" = some (JSVal.bool false) :=
  ⟨by decide, by decide, by decide,
    claim_C9_no_revision optsW ["B", "A", "C", "T"] ["B", "A"] ["C", "T"] "B"
      (JSVal.bool false) [("B", JSVal.bool false), ("A", JSVal.bool true)]
      [("B", JSVal.bool false), ("A", JSVal.bool true),
        ("C", JSVal.str "y"), ("T", JSVal.str "hi")]
      [Resp.pick (some "y"), Resp.text (some "hi")]
      (by decide) rfl (by decide) (by decide) (by decide)⟩

theorem type_of_isCheckboxB {opts : OptionSet} {x : String} {o : Opt}
    (ho : lookupOpt opts x = some o) (h : isCheckboxB opts x = true) :
    o.type = OptType.CHECKBOX := by
  simp [isCheckboxB, ho] at h
  exact h

theorem collect_typed (opts : OptionSet) :
    ∀ (resps : List Resp) (vals : List (String × JSVal)) (L : List String)
      (final : List (String × JSVal)),
      L.Nodup →
      collectLoop opts resps vals L = some final →
      ∀ id ∈ L, wellTypedAt opts final id := by
  intro resps
  induction resps with
  | nil =>
    intro vals L final _ hrun id hid
    cases L with
    | nil => simp at hid
    | cons id₀ rest => simp [collectLoop] at hrun
  | cons resp resps ih =>
    intro vals L final hnd hrun id hid
    cases L with
    | nil => simp at hid
    | cons id₀ rest =>
      obtain ⟨hid₀rest, hndrest⟩ := List.nodup_cons.1 hnd
      cases ho : lookupOpt opts id₀ with
      | none => simp [collectLoop, ho] at hrun
      | some o =>
        cases hty : o.type with
        | CHECKBOX =>
          cases resp with
          | text r => simp [collectLoop, ho, hty] at hrun
          | pick r => simp [collectLoop, ho, hty] at hrun
          | clusterSel r =>
            cases r with
            | none => simp [collectLoop, ho, hty] at hrun
            | some sel =>
              simp only [collectLoop, ho, hty] at hrun
              split at hrun
              · next hsub =>
                have hLsplit : rest = rest.takeWhile (isCheckboxB opts) ++
                    rest.dropWhile (isCheckboxB opts) :=
                  (List.takeWhile_append_dropWhile _ _).symm
                have hndrest' : (rest.dropWhile (isCheckboxB opts)).Nodup :=
                  (List.dropWhile_sublist _).nodup hndrest
                by_cases hidrest' : id ∈ rest.dropWhile (isCheckboxB opts)
                · exact ih _ _ _ hndrest' hrun id hidrest'
                · have hidcluster : id ∈ id₀ :: rest.takeWhile (isCheckboxB opts) := by
                    rcases List.mem_cons.1 hid with h | h
                    · exact h ▸ List.mem_cons_self _ _
                    · rw [hLsplit] at h
                      rcases List.mem_append.1 h with h | h
                      · exact List.mem_cons_of_mem _ h
                      · exact absurd h hidrest'
                  intro o' ho'
                  have hty' : o'.type = OptType.CHECKBOX := by
                    rcases List.mem_cons.1 hidcluster with h | h
                    · rw [h] at ho'
                      rw [ho] at ho'
                      injection ho' with ho''
                      rw [← ho'']
                      exact hty
                    · exact type_of_isCheckboxB ho' (List.mem_takeWhile_imp h)
                  rw [hty']
                  have hframe := collectLoop_frame opts resps _ _ _ hrun id hidrest'
                  rw [hframe]
                  by_cases hsel : id ∈ sel
                  · rw [jsGet_foldl_const_mem _ _ _ _ hsel]
                    exact ⟨true, rfl⟩
                  · rw [jsGet_foldl_const_notMem _ _ _ _ hsel,
                      jsGet_foldl_const_mem _ _ _ _ hidcluster]
                    exact ⟨false, rfl⟩
              · exact absurd hrun (by simp)
        | DROPDOWN =>
          cases resp with
          | text r => simp [collectLoop, ho, hty] at hrun
          | clusterSel r => simp [collectLoop, ho, hty] at hrun
          | pick r =>
            cases r with
            | none => simp [collectLoop, ho, hty] at hrun
            | some s =>
              simp only [collectLoop, ho, hty] at hrun
              split at hrun
              · next hcs =>
                rcases List.mem_cons.1 hid with h | h
                · subst h
                  intro o' ho'
                  rw [ho] at ho'
                  injection ho' with ho''
                  subst ho''
                  rw [hty]
                  have hframe := collectLoop_frame opts resps _ _ _ hrun id hid₀rest
                  rw [hframe, jsGet_jsSet_self]
                  exact ⟨s, rfl, List.elem_iff.1 hcs⟩
                · exact ih _ _ _ hndrest hrun id h
              · exact absurd hrun (by simp)
        | TEXT =>
          cases resp with
          | pick r => simp [collectLoop, ho, hty] at hrun
          | clusterSel r => simp [collectLoop, ho, hty] at hrun
          | text r =>
            cases r with
            | none => simp [collectLoop, ho, hty] at hrun
            | some s =>
              simp only [collectLoop, ho, hty] at hrun
              split at hrun
              · next hs => exact absurd hrun (by simp)
              · next hs =>
                rcases List.mem_cons.1 hid with h | h
                · subst h
                  intro o' ho'
                  rw [ho] at ho'
                  injection ho' with ho''
                  subst ho''
                  rw [hty]
                  have hframe := collectLoop_frame opts resps _ _ _ hrun id hid₀rest
                  rw [hframe, jsGet_jsSet_self]
                  exact ⟨s, rfl⟩
                · exact ih _ _ _ hndrest hrun id h

/-- C10: on successful completion of the collection loop over the resolved
order, the final user value map is well-typed and in-domain at every id of
the order: checkbox ids map to booleans, text ids map to strings, dropdown
ids map to one of their declared choices. -/
theorem claim_C10_welltyped (opts : OptionSet) (l : List String)
    (resps : List Resp) (final : List (String × JSVal))
    (hl : idOrder opts = some l)
    (hrun : collectLoop opts resps [] l = some final) :
    ∀ id ∈ l, wellTypedAt opts final id :=
  collect_typed opts resps [] l final (idOrder_nodup hl) hrun

/-- Witness for C10: a completed run over the concrete option set produces
a well-typed map at every id of the resolved order. -/
theorem claim_C10_witness :
    idOrder optsW = some ["B", "A", "C", "T"] ∧
      collectLoop optsW
        [Resp.clusterSel (some ["A"]), Resp.pick (some "y"), Resp.text (some "hi")]
        [] ["B", "A", "C", "T"] =
        some [("B", JSVal.bool false), ("A", JSVal.bool true),
          ("C", JSVal.str "y"), ("T", JSVal.str "hi")] ∧
      ∀ id ∈ ["B", "A", "C", "T"],
        wellTypedAt optsW
          [("B", JSVal.bool false), ("A", JSVal.bool true),
            ("C", JSVal.str "y"), ("T", JSVal.str "hi")] id :=
  ⟨by decide, by decide,
    claim_C10_welltyped optsW ["B", "A", "C", "T"]
      [Resp.clusterSel (some ["A"]), Resp.pick (some "y"), Resp.text (some "hi")]
      [("B", JSVal.bool false), ("A", JSVal.bool true),
        ("C", JSVal.str "y"), ("T", JSVal.str "hi")]
      (by decide) (by decide)⟩
